import Mathlib

/-!
Verification development for the WAGO quote-PDF parser repository
(`tools/wago-pdf-parser/parse_wago_quote_pdf_v1_original.py` and
`tools/wago-pdf-parser/parse_wago_quote_pdf.py`).

Text is modelled as `List Char`; table cells as reported by the PDF table
extractor are modelled by `Cell` (text, absent, numeric, or NaN).  Python
floats are modelled by exact scaled-decimal arithmetic (`PyF` over
`DecVal`), which agrees with
IEEE doubles on all decimal literals of at most 15 significant digits; the
special values inf, -inf and nan are modelled explicitly.  Regular-expression
searches are modelled by direct scanning functions whose behaviour matches
the concrete patterns used in the source (`RE_PRICE`, `RE_DISCOUNT`,
`RE_SERIES_NUM`, `RE_SERIES_DISCOUNT`, `RE_QUOTE_NUMBER`).
-/

namespace Waigo

/-- ASCII decimal digit test, modelling the character class `\d` of the
source's regular expressions (restricted to ASCII). -/
def isDig (c : Char) : Bool :=
  c = '0' || c = '1' || c = '2' || c = '3' || c = '4' ||
  c = '5' || c = '6' || c = '7' || c = '8' || c = '9'

/-- Whitespace as recognised by Python's `str.strip`, `str.split` and the
regex class `\s` (restricted to ASCII). -/
def isPySpace (c : Char) : Bool :=
  c = ' ' || c = '\t' || c = '\n' || c = '\r' || c = '\x0b' || c = '\x0c'

/-- Remove leading whitespace (the first half of Python `str.strip`). -/
def stripStart (s : List Char) : List Char := s.dropWhile isPySpace

/-- Remove trailing whitespace (the second half of Python `str.strip`). -/
def stripEnd (s : List Char) : List Char := (s.reverse.dropWhile isPySpace).reverse

/-- Python `str.strip()`. -/
def pyStrip (s : List Char) : List Char := stripEnd (stripStart s)

/-- Python `str.lower()` (ASCII). -/
def pyLower (s : List Char) : List Char := s.map Char.toLower

/-- Python substring containment `needle in hay`. -/
def containsSub (needle : List Char) : List Char → Bool
  | [] => needle.isEmpty
  | c :: rest => needle.isPrefixOf (c :: rest) || containsSub needle rest

/-- Accumulator worker for `splitWs`; `cur` holds the characters of the
current word in reverse. -/
def splitWsAux (cur : List Char) : List Char → List (List Char)
  | [] => if cur = [] then [] else [cur.reverse]
  | c :: rest =>
    if isPySpace c then
      if cur = [] then splitWsAux [] rest else cur.reverse :: splitWsAux [] rest
    else splitWsAux (c :: cur) rest

/-- Python `str.split()` with no argument: split on whitespace runs,
dropping empty pieces. -/
def splitWs (s : List Char) : List (List Char) := splitWsAux [] s

/-- Python `" ".join(pieces)`. -/
def joinSpace (pieces : List (List Char)) : List Char := List.intercalate [' '] pieces

/-- Fuel-indexed worker for `replaceAll`; the fuel is an upper bound on
the number of characters left and only makes the recursion structural. -/
def replaceAllAux (pat repl : List Char) : ℕ → List Char → List Char
  | _, [] => []
  | 0, s => s
  | fuel + 1, c :: rest =>
    if pat ≠ [] && pat.isPrefixOf (c :: rest) then
      repl ++ replaceAllAux pat repl fuel (rest.drop (pat.length - 1))
    else
      c :: replaceAllAux pat repl fuel rest

/-- Python `s.replace(pat, repl)` for a non-empty literal pattern:
left-to-right, non-overlapping. -/
def replaceAll (pat repl s : List Char) : List Char :=
  replaceAllAux pat repl s.length s

/-- Python `s.replace(c, "")` for a single character: remove every
occurrence. -/
def removeChar (c : Char) (s : List Char) : List Char := s.filter (fun d => d ≠ c)

/-- Text before the first occurrence of `pat`, i.e. Python
`s.split(pat)[0]` for a non-empty literal `pat`. -/
def takeBefore (pat : List Char) : List Char → List Char
  | [] => []
  | c :: rest =>
    if pat ≠ [] && pat.isPrefixOf (c :: rest) then []
    else c :: takeBefore pat rest

/-- Digit characters read as a natural number (most significant first). -/
def digitsToNat (ds : List Char) : ℕ := ds.foldl (fun a c => 10 * a + (c.toNat - 48)) 0

/-- Decimal digits of a natural number, via `Nat.toDigits`. -/
def natDigits (n : ℕ) : List Char := Nat.toDigits 10 n

/-- An exact decimal value `num / 10 ^ exp`, the model of a finite
Python float (exact for all decimal literals of at most 15 significant
digits; not kept normalized). -/
structure DecVal where
  num : ℤ
  exp : ℕ
deriving DecidableEq

/-- Negation of a decimal value. -/
def DecVal.neg (v : DecVal) : DecVal := ⟨-v.num, v.exp⟩

/-- Scale a decimal value by `10 ^ e` or `10 ^ (-e)`. -/
def DecVal.scale (v : DecVal) (negExp : Bool) (e : ℕ) : DecVal :=
  if negExp then ⟨v.num, v.exp + e⟩ else ⟨v.num * (10 : ℤ) ^ e, v.exp⟩

/-- Model of a Python float value: a finite exact decimal, or one of the
special values. -/
inductive PyF
  | finite (v : DecVal)
  | inf
  | ninf
  | nan
deriving DecidableEq

/-- Negation of a Python float. -/
def PyF.neg : PyF → PyF
  | .finite v => .finite v.neg
  | .inf => .ninf
  | .ninf => .inf
  | .nan => .nan

/-- Mantissa value `ip.fp` of a float literal. -/
def pyMantissa (ip fp : List Char) : DecVal :=
  ⟨(digitsToNat (ip ++ fp) : ℤ), fp.length⟩

/-- Exponent-and-end step of Python `float()`: digits of the exponent with
nothing after them. -/
def pyExpDigits (m : DecVal) (neg : Bool) (u : List Char) : Option PyF :=
  if u ≠ [] ∧ u.all isDig then some (.finite (m.scale neg (digitsToNat u)))
  else none

/-- Optional exponent sign of Python `float()`. -/
def pyExp (m : DecVal) (r : List Char) : Option PyF :=
  match r with
  | '+' :: u => pyExpDigits m false u
  | '-' :: u => pyExpDigits m true u
  | u => pyExpDigits m false u

/-- Final step of Python `float()` after the mantissa digits have been
read: the rest must be empty or an exponent. -/
def pyFloatFinish (ip fp rest : List Char) : Option PyF :=
  if ip = [] ∧ fp = [] then none
  else
    match rest with
    | [] => some (.finite (pyMantissa ip fp))
    | 'e' :: r => pyExp (pyMantissa ip fp) r
    | 'E' :: r => pyExp (pyMantissa ip fp) r
    | _ => none

/-- Python `float()` on a stripped, unsigned string: the special values
inf/infinity/nan (case-insensitive), or digits with an optional fractional
part and optional exponent.  Underscore digit separators are not
modelled. -/
def pyFloatCore (t : List Char) : Option PyF :=
  if pyLower t = "inf".data ∨ pyLower t = "infinity".data then some .inf
  else if pyLower t = "nan".data then some .nan
  else
    let ip := t.takeWhile isDig
    let r1 := t.dropWhile isDig
    match r1 with
    | '.' :: r2 => pyFloatFinish ip (r2.takeWhile isDig) (r2.dropWhile isDig)
    | _ => pyFloatFinish ip [] r1

/-- Python `float(s)` on a string: strip whitespace, optional sign, then
the unsigned form.  Returns `none` where Python raises `ValueError`. -/
def pyFloat (s : List Char) : Option PyF :=
  match pyStrip s with
  | [] => none
  | c :: u =>
    if c = '+' then pyFloatCore u
    else if c = '-' then (pyFloatCore u).map PyF.neg
    else pyFloatCore (c :: u)

/-- Round-half-even of the fraction `a / b` (naturals, `b` positive) to
a natural number, as used by float formatting with a fixed number of
decimals. -/
def rheDiv (a b : ℕ) : ℕ :=
  let q := a / b
  let r := a % b
  if 2 * r < b then q
  else if b < 2 * r then q + 1
  else if q % 2 = 0 then q else q + 1

/-- Insert a comma after every third character; input and output are
reversed digit strings (worker for `group3`). -/
def group3Rev : List Char → List Char
  | a :: b :: c :: d :: rest => a :: b :: c :: ',' :: group3Rev (d :: rest)
  | l => l

/-- Comma thousands grouping of a digit string, as produced by Python's
`,` format specifier. -/
def group3 (ds : List Char) : List Char := (group3Rev ds.reverse).reverse

/-- Render a natural number as exactly two digits (for the cents part of
a price). -/
def twoDigits (n : ℕ) : List Char := if n < 10 then '0' :: natDigits n else natDigits n

/-- Format a non-negative amount of cents in the style of Python
`format(v, ",.2f")`: comma-grouped integer part, a dot, two decimals. -/
def commaFmt2Nat (cents : ℕ) : List Char :=
  group3 (natDigits (cents / 100)) ++ '.' :: twoDigits (cents % 100)

/-- Python `f"{v:,.2f}"` on a float value (exact-decimal model; sign
taken from the value, magnitude rounded half-even to cents). -/
def fmtComma2 : PyF → List Char
  | .nan => "nan".data
  | .inf => "inf".data
  | .ninf => "-inf".data
  | .finite v =>
    (if v.num < 0 then ['-'] else []) ++
      commaFmt2Nat (rheDiv (100 * v.num.natAbs) ((10 : ℕ) ^ v.exp))

/-- Remove factors of ten shared between the numerator and the scale of
a decimal value (worker for `reprDec`). -/
def stripTensAux : ℕ → ℕ → ℕ × ℕ
  | n, 0 => (n, 0)
  | n, e + 1 => if n % 10 = 0 then stripTensAux (n / 10) e else (n, e + 1)

/-- Pad a digit string on the left with zeros to length `k`. -/
def padZeros (k : ℕ) (ds : List Char) : List Char :=
  List.replicate (k - ds.length) '0' ++ ds

/-- Python `str(v)` for a finite float with an exactly representable
decimal value: minimal decimal digits, at least one fractional digit. -/
def reprDec (v : DecVal) : List Char :=
  let sgn : List Char := if v.num < 0 then ['-'] else []
  let p := stripTensAux v.num.natAbs v.exp
  let k := max 1 p.2
  let m := p.1 * 10 ^ (k - p.2)
  sgn ++ natDigits (m / 10 ^ k) ++ '.' :: padZeros k (natDigits (m % 10 ^ k))

/-- Python `str(v)` of a float value (`f"{n}%"` uses this). -/
def pyReprF : PyF → List Char
  | .finite v => reprDec v
  | .inf => "inf".data
  | .ninf => "-inf".data
  | .nan => "nan".data

/-- A table cell as handed to the row logic: missing, a text value, a
numeric value, or a float NaN (for which `pd.isna` is true). -/
inductive Cell
  | pynone
  | pystr (s : List Char)
  | pynum (v : DecVal)
  | pynan
deriving DecidableEq

/-- Python `str(cell)` (without stripping). -/
def cellStrRaw : Cell → List Char
  | .pynone => "None".data
  | .pystr s => s
  | .pynum v => reprDec v
  | .pynan => "nan".data

/-- Python truthiness of a cell value (`if c` over cells). -/
def cellTruthy : Cell → Bool
  | .pynone => false
  | .pystr s => !s.isEmpty
  | .pynum v => v.num ≠ 0
  | .pynan => true

/-- Character class `[\d,]` of `RE_PRICE`. -/
def isPriceClass (c : Char) : Bool := isDig c || c = ','

/-- Tail of an `RE_PRICE` match attempt after a `$` was found:
`\s*([\d,]+(?:\.\d{2})?)`; returns the captured group. -/
def rePriceTail (s : List Char) : Option (List Char) :=
  let t := s.dropWhile isPySpace
  let digs := t.takeWhile isPriceClass
  if digs.isEmpty then none
  else
    match t.dropWhile isPriceClass with
    | '.' :: d1 :: d2 :: _ =>
      if isDig d1 && isDig d2 then some (digs ++ ['.', d1, d2]) else some digs
    | _ => some digs

/-- Model of `RE_PRICE.search`: leftmost `$` followed (after whitespace) by at
least one digit-or-comma character; captured group returned. -/
def rePriceSearch : List Char → Option (List Char)
  | [] => none
  | c :: rest =>
    if c = '$' then
      match rePriceTail rest with
      | some g => some g
      | none => rePriceSearch rest
    else rePriceSearch rest

/-- Whitespace then a percent sign (`\s*%` of `RE_DISCOUNT`). -/
def wsThenPct (s : List Char) : Bool :=
  match s.dropWhile isPySpace with
  | '%' :: _ => true
  | _ => false

/-- One `RE_DISCOUNT` match attempt at a position whose head is a digit:
`(\d+(?:\.\d+)?)\s*%`. -/
def reDiscountTry (s : List Char) : Option (List Char) :=
  let ip := s.takeWhile isDig
  let r1 := s.dropWhile isDig
  match r1 with
  | '.' :: r2 =>
    let fp := r2.takeWhile isDig
    if fp ≠ [] && wsThenPct (r2.dropWhile isDig) then some (ip ++ '.' :: fp)
    else if wsThenPct r1 then some ip
    else none
  | _ => if wsThenPct r1 then some ip else none

/-- Model of `RE_DISCOUNT.search`: leftmost number (with optional fraction)
followed by optional whitespace and a percent sign. -/
def reDiscountSearch : List Char → Option (List Char)
  | [] => none
  | c :: rest =>
    if isDig c then
      match reDiscountTry (c :: rest) with
      | some g => some g
      | none => reDiscountSearch rest
    else reDiscountSearch rest

/-- Model of `_clean_text`: replace line breaks with `"; "`, carriage
returns with a space, collapse whitespace runs, strip. -/
def cleanText (s : List Char) : List Char :=
  if s = [] then []
  else pyStrip (joinSpace (splitWs (replaceAll ['\r'] [' '] (replaceAll ['\n'] "; ".data s))))

/-- Model of `_clean_part_number`: strip, collapse internal whitespace
runs to single spaces, keep `/` and parentheses. -/
def cleanPartNumber (s : List Char) : List Char :=
  if s = [] then []
  else joinSpace (splitWs (pyStrip s))

/-- Model of `_extract_price_from_cell` on a text cell: `RE_PRICE` search
first, then a bare-number fallback. -/
def extractPriceFromText (s0 : List Char) : Option (List Char) :=
  let s := pyStrip s0
  match rePriceSearch s with
  | some g =>
    match pyFloat (removeChar ',' g) with
    | some f => some ('$' :: fmtComma2 f)
    | none => some ('$' :: g)
  | none =>
    match pyFloat (pyStrip (removeChar '$' (removeChar ',' s))) with
    | some f => some ('$' :: fmtComma2 f)
    | none => none

/-- Model of `_extract_price_from_cell`: `None`/NaN give no price, a
numeric cell is formatted directly (without a `$`), text goes through
`extractPriceFromText`. -/
def extractPriceFromCell : Cell → Option (List Char)
  | .pynone => none
  | .pynan => none
  | .pynum v => some (fmtComma2 (.finite v))
  | .pystr s => extractPriceFromText s

/-- Model of `_extract_discount_from_cell` on the string form of the
cell: `RE_DISCOUNT` search first, then a bare-number fallback rendered
with `str(float)`. -/
def extractDiscountFromText (s0 : List Char) : Option (List Char) :=
  let s := pyStrip s0
  match reDiscountSearch s with
  | some g => some (g ++ ['%'])
  | none =>
    match pyFloat (pyStrip (removeChar ',' (removeChar '%' s))) with
    | some f => some (pyReprF f ++ ['%'])
    | none => none

/-- Model of `_extract_discount_from_cell`. -/
def extractDiscountFromCell : Cell → Option (List Char)
  | .pynone => none
  | .pynan => none
  | .pynum v => extractDiscountFromText (reprDec v)
  | .pystr s => extractDiscountFromText s

/-- Model of `_series_numeric_only`: a cell that is entirely 2 to 4
digits (with surrounding whitespace) keeps them, otherwise all digit
characters are collected; empty when there are none. -/
def seriesNumericOnly (s : List Char) : List Char :=
  if s = [] then []
  else
    let t := pyStrip s
    if t.all isDig && 2 ≤ t.length && t.length ≤ 4 then t
    else s.filter isDig

/-- Python `a or b` over strings: the first operand unless it is empty. -/
def pyOr (a b : List Char) : List Char := if a = [] then b else a

/-- Column-role assignment of a table: optional index per semantic
role, mirroring the `indices` dictionary of the source. -/
structure Indices where
  part : Option ℕ
  series : Option ℕ
  descr : Option ℕ
  price : Option ℕ
  discount : Option ℕ
deriving DecidableEq

/-- The header-cell preprocessing of `_infer_column_indices`:
`str(c).lower().strip() if c is not None else ""`. -/
def headerCellStr : Cell → List Char
  | .pynone => []
  | .pystr s => pyStrip (pyLower s)
  | .pynum v => pyStrip (pyLower (reprDec v))
  | .pynan => "nan".data

/-- The semantic roles assigned by header keyword matching. -/
inductive HRole
  | part
  | series
  | descr
  | price
  | discount
deriving DecidableEq

/-- The keyword rules of `_infer_column_indices`, evaluated in the
source's `if`/`elif` order; a cell is classified by the first rule it
satisfies.  `joined` is `" ".join(h)`. -/
def roleOfCell (joined cell : List Char) : Option HRole :=
  if containsSub ("part".data) cell &&
      (containsSub ("number".data) cell || containsSub ("no".data) cell ||
        containsSub ("nr".data) cell) then some .part
  else if containsSub ("series".data) cell then some .series
  else if containsSub ("desc".data) cell || containsSub ("product".data) cell then some .descr
  else if containsSub ("price".data) cell ||
      (containsSub ("unit".data) cell && containsSub ("price".data) joined) then some .price
  else if containsSub ("discount".data) cell || containsSub ("disc".data) cell then some .discount
  else none

/-- Project an `Indices` record at a role. -/
def Indices.get (idx : Indices) : HRole → Option ℕ
  | .part => idx.part
  | .series => idx.series
  | .descr => idx.descr
  | .price => idx.price
  | .discount => idx.discount

/-- The all-unassigned role mapping. -/
def emptyIndices : Indices := ⟨none, none, none, none, none⟩

/-- One step of the assignment loop of `_infer_column_indices`: cell `i`
overwrites the slot of whichever role it matches. -/
def assignStep (joined : List Char) (idx : Indices) (i : ℕ) (cell : List Char) : Indices :=
  match roleOfCell joined cell with
  | some .part => { idx with part := some i }
  | some .series => { idx with series := some i }
  | some .descr => { idx with descr := some i }
  | some .price => { idx with price := some i }
  | some .discount => { idx with discount := some i }
  | none => idx

/-- The assignment loop of `_infer_column_indices` over the cells, with
`i` the index of the first cell of `cs`. -/
def assignLoopAux (joined : List Char) (idx : Indices) (i : ℕ) : List (List Char) → Indices
  | [] => idx
  | c :: rest => assignLoopAux joined (assignStep joined idx i c) (i + 1) rest

/-- The assignment loop of `_infer_column_indices` started from the
empty mapping. -/
def assignLoop (joined : List Char) (h : List (List Char)) : Indices :=
  assignLoopAux joined emptyIndices 0 h

/-- Model of `_infer_column_indices`: keyword assignment over the header
cells, then the in-function fallbacks `price := len - 2` (when at least
4 cells) and `discount := len - 1` (when at least 5 cells). -/
def inferColumnIndices (header : List Cell) : Indices :=
  let h := header.map headerCellStr
  let joined := joinSpace h
  let idx := assignLoop joined h
  let idx := if idx.price = none ∧ 4 ≤ h.length then { idx with price := some (h.length - 2) } else idx
  if idx.discount = none ∧ 5 ≤ h.length then { idx with discount := some (h.length - 1) } else idx

/-- The per-cell string of `_infer_column_indices_from_rows`:
`str(cell).strip() if cell is not None else ""`. -/
def frCellStr : Cell → List Char
  | .pynone => []
  | c => pyStrip (cellStrRaw c)

/-- Whether a cell counts towards the price column in
`_infer_column_indices_from_rows`. -/
def priceish (c : Cell) : Bool :=
  (extractPriceFromCell c).isSome ||
    (!(frCellStr c).isEmpty && (rePriceSearch (frCellStr c)).isSome)

/-- Whether a cell counts towards the discount column in
`_infer_column_indices_from_rows`. -/
def discountish (c : Cell) : Bool :=
  (extractDiscountFromCell c).isSome ||
    (!(frCellStr c).isEmpty && (reDiscountSearch (frCellStr c)).isSome)

/-- Number of cells of column `i` over the rows that satisfy `p`. -/
def countCol (p : Cell → Bool) (rows : List (List Cell)) (i : ℕ) : ℕ :=
  rows.foldl (fun a r => if p (r.getD i Cell.pynone) && i < r.length then a + 1 else a) 0

/-- Python `max(range(n), key=f)` over a list of values: the first index
attaining the maximum. -/
def argmaxFirst (l : List ℕ) : ℕ :=
  (l.foldl
    (fun st v =>
      if st.2.2 < v then (st.1 + 1, st.1, v) else (st.1 + 1, st.2.1, st.2.2))
    ((0 : ℕ), (0 : ℕ), l.headD 0)).2.1

/-- Model of `_infer_column_indices_from_rows` (defined in the original
source but never invoked by its `parse_pdf`): frequency scan for the
price and discount columns, fixed positions for the others. -/
def inferColumnIndicesFromRows (rows : List (List Cell)) : Indices :=
  if rows = [] then ⟨some 0, some 1, some 2, some 3, some 4⟩
  else
    let ncols := (rows.map List.length).foldl max 0
    if ncols < 3 then ⟨some 0, none, some 1, some 2, none⟩
    else
      let priceCounts := (List.range ncols).map (countCol priceish rows)
      let discountCounts := (List.range ncols).map (countCol discountish rows)
      let priceIdx :=
        if 0 < priceCounts.foldl max 0 then argmaxFirst priceCounts else ncols - 2
      let discountIdx :=
        if 0 < discountCounts.foldl max 0 then argmaxFirst discountCounts else ncols - 1
      ⟨some 0, if 2 ≤ ncols then some 1 else none,
        if 3 ≤ ncols then some 2 else some 1, some priceIdx, some discountIdx⟩

/-- Model of `_is_header_row`: join the truthy cells (lowered) with
spaces and look for `part` together with `price` or `description`. -/
def isHeaderRow (row : List Cell) : Bool :=
  if row = [] then false
  else
    let combined := joinSpace ((row.filter cellTruthy).map (fun c => pyLower (cellStrRaw c)))
    containsSub ("part".data) combined &&
      (containsSub ("price".data) combined || containsSub ("description".data) combined)

/-- The cell handed to the price/discount extractors by the row logic:
`row[i] if i is not None and i < len(row) else None`. -/
def rowCell (row : List Cell) : Option ℕ → Cell
  | none => Cell.pynone
  | some i => row.getD i Cell.pynone

/-- The `get` helper of `_normalize_row`: a missing index, an
out-of-range index, `None` and NaN give the empty string, any other cell
its stripped string form. -/
def rowGetStr (row : List Cell) (o : Option ℕ) : List Char :=
  match rowCell row o with
  | .pynone => []
  | .pynan => []
  | .pystr s => pyStrip s
  | .pynum v => pyStrip (reprDec v)

/-- Model of `_row_has_price`. -/
def rowHasPrice (row : List Cell) : Option ℕ → Bool
  | none => false
  | some i =>
    if i < row.length then (extractPriceFromCell (row.getD i Cell.pynone)).isSome else false

/-- Model of `_row_looks_like_series_discount`: a parseable discount and
no parseable price. -/
def rowLooksLikeSeriesDiscount (row : List Cell) (idx : Indices) : Bool :=
  (idx.discount.isSome && (extractDiscountFromCell (rowCell row idx.discount)).isSome) &&
    !(idx.price.isSome && (extractPriceFromCell (rowCell row idx.price)).isSome)

/-- One output record: the five named string fields of the CSV. -/
structure Rec where
  partNumber : List Char
  series : List Char
  description : List Char
  price : List Char
  discount : List Char
deriving DecidableEq

/-- Model of `_normalize_row`. -/
def normalizeRow (row : List Cell) (idx : Indices) (isSD : Bool) : Option Rec :=
  let part := cleanPartNumber (rowGetStr row idx.part)
  let series := seriesNumericOnly (rowGetStr row idx.series)
  let desc := cleanText (rowGetStr row idx.descr)
  let priceStr : Option (List Char) :=
    if isSD then none else extractPriceFromCell (rowCell row idx.price)
  let discountStr := extractDiscountFromCell (rowCell row idx.discount)
  if isSD then
    some ⟨[], pyOr series (pyOr (seriesNumericOnly part) (seriesNumericOnly desc)),
      desc, [], discountStr.getD []⟩
  else
    match priceStr with
    | none => none
    | some p => if p = [] then none else some ⟨part, series, desc, p, discountStr.getD []⟩

/-- Row padding of the original `parse_pdf` loop:
`while len(row) < 5: row.append("")`. -/
def padTo5 (row : List Cell) : List Cell :=
  row ++ List.replicate (5 - row.length) (Cell.pystr [])

/-- Index inference from a detected header row in the original
`parse_pdf` (lines 363-369): `_infer_column_indices` plus the
`len(row) - 2` / `len(row) - 1` defaults. -/
def inferHeaderIdx (row : List Cell) : Indices :=
  let idx := inferColumnIndices row
  let idx := if idx.price = none then { idx with price := some (row.length - 2) } else idx
  if idx.discount = none then { idx with discount := some (row.length - 1) } else idx

/-- Index inference from the first non-header row in the original
`parse_pdf` (lines 370-375): also `_infer_column_indices`, with
`max(0, len(row) - 2)` / `max(0, len(row) - 1)` defaults. -/
def inferNoHeader (row : List Cell) : Indices :=
  let idx := inferColumnIndices row
  let idx := if idx.price = none then { idx with price := some (max 0 (row.length - 2)) } else idx
  if idx.discount = none then { idx with discount := some (max 0 (row.length - 1)) } else idx

/-- Classification and normalization of one (padded, non-header) row in
the original `parse_pdf` loop: the record it appends, if any. -/
def origRowRec (idx : Indices) (row : List Cell) : Option Rec :=
  let isSD := rowLooksLikeSeriesDiscount row idx
  if !isSD && !rowHasPrice row idx.price then none
  else normalizeRow row idx isSD

/-- One iteration of the row loop of the original `parse_pdf`, carrying
the (document-global) role mapping and the accumulated records. -/
def origStep (st : Option Indices × List Rec) (row0 : List Cell) : Option Indices × List Rec :=
  if row0 = [] then st
  else
    let row := padTo5 row0
    match st.1 with
    | none =>
      if isHeaderRow row then (some (inferHeaderIdx row), st.2)
      else
        let idx := inferNoHeader row
        (some idx, st.2 ++ (origRowRec idx row).toList)
    | some idx =>
      if isHeaderRow row then (some idx, st.2)
      else (some idx, st.2 ++ (origRowRec idx row).toList)

/-- Per-table processing of the original `parse_pdf`: tables with fewer
than 2 rows are skipped, others are folded row by row. -/
def origProcessTable (st : Option Indices × List Rec) (table : List (List Cell)) :
    Option Indices × List Rec :=
  if table = [] ∨ table.length < 2 then st else table.foldl origStep st

/-- All records accumulated over a list of tables by the original
`parse_pdf` (the role mapping persists across tables). -/
def origCollect (tables : List (List (List Cell))) : List Rec :=
  (tables.foldl origProcessTable (none, [])).2

/-- A page as seen by the original pipeline: optional extracted text and
the extracted tables. -/
structure OrigPage where
  text : Option (List Char)
  tables : List (List (List Cell))
deriving DecidableEq

/-- Page-range selection of the original `parse_pdf`: pages
`1..min(9, n)-1` plus the last page when multi-page, else page 0. -/
def pageIndices (numPages : ℕ) : List ℕ :=
  if 1 < numPages then
    let base := (List.range (min 9 numPages)).drop 1
    if numPages - 1 ∈ base then base else base ++ [numPages - 1]
  else [0]

/-- Model of `_tables_with_pdfplumber`: concatenated tables of the pages
at the given indices (out-of-range indices skipped). -/
def tablesOnPages (pages : List OrigPage) (idxs : List ℕ) : List (List (List Cell)) :=
  idxs.foldl
    (fun acc i => if i < pages.length then acc ++ (pages.getD i ⟨none, []⟩).tables else acc) []

/-- Table selection of the original `parse_pdf`: the preferred page
range, falling back to all pages when it yields no tables. -/
def origSelectTables (pages : List OrigPage) : List (List (List Cell)) :=
  let t := tablesOnPages pages (pageIndices pages.length)
  if t = [] then tablesOnPages pages (List.range pages.length) else t

/-- Character class `[A-Z0-9\-]` of `RE_QUOTE_NUMBER` under
`re.IGNORECASE`. -/
def isQTok (c : Char) : Bool :=
  ('A' ≤ c && c ≤ 'Z') || ('a' ≤ c && c ≤ 'z') || isDig c || c = '-'

/-- Tail of an `RE_QUOTE_NUMBER` match after the keyword:
`\s*#?\s*:?\s*([A-Z0-9\-]+)`. -/
def quoteTail (s : List Char) : Option (List Char) :=
  let s1 := s.dropWhile isPySpace
  let s2 := match s1 with | '#' :: r => r | _ => s1
  let s3 := s2.dropWhile isPySpace
  let s4 := match s3 with | ':' :: r => r | _ => s3
  let s5 := s4.dropWhile isPySpace
  let tok := s5.takeWhile isQTok
  if tok = [] then none else some tok

/-- Case-insensitive literal prefix test. -/
def ciStarts (alt s : List Char) : Bool := alt.isPrefixOf (pyLower (s.take alt.length))

/-- Try the keyword alternatives of `RE_QUOTE_NUMBER` at one position,
in the pattern's order. -/
def quoteTryAlts (alts : List (List Char)) (s : List Char) : Option (List Char) :=
  match alts with
  | [] => none
  | a :: rest =>
    match (if ciStarts a s then quoteTail (s.drop a.length) else none) with
    | some g => some g
    | none => quoteTryAlts rest s

/-- Model of `RE_QUOTE_NUMBER.search`: leftmost keyword alternative followed by a
separator and an alphanumeric-dash token. -/
def quoteSearch (alts : List (List Char)) : List Char → Option (List Char)
  | [] => none
  | c :: rest =>
    match quoteTryAlts alts (c :: rest) with
    | some g => some g
    | none => quoteSearch alts rest

/-- Model of `_extract_metadata`'s quote-number field for the original
pipeline: texts of the first and last page (truthy only), joined with a
line break, searched with alternatives `quote|quotation`. -/
def origMetaQuote (pages : List OrigPage) : Option (List Char) :=
  let idxs := ([0, pages.length - 1].filter (· < pages.length))
  let texts := idxs.filterMap
    (fun i =>
      match (pages.getD i ⟨none, []⟩).text with
      | some t => if t = [] then none else some t
      | none => none)
  quoteSearch ["quote".data, "quotation".data] (List.intercalate ['\n'] texts)

/-- Errors raised by the parse functions. -/
inductive PErr
  | fileNotFound
  | notPdf
  | noRows
deriving DecidableEq

/-- Model of the original `parse_pdf`: existence and extension checks,
metadata, page selection, per-table row folding, and the empty-result
`ValueError`. -/
def origParsePdf (pathExists suffixPdf : Bool) (pages : List OrigPage) :
    Except PErr (List Rec × Option (List Char)) :=
  if !pathExists then .error .fileNotFound
  else if !suffixPdf then .error .notPdf
  else
    let meta := origMetaQuote pages
    let recs := origCollect (origSelectTables pages)
    if recs = [] then .error .noRows else .ok (recs, meta)

/-- Character class `[\d.]` of `RE_SERIES_DISCOUNT`'s percentage
group. -/
def isPctClass (c : Char) : Bool := isDig c || c = '.'

/-- Scan for the `([\d.]+)%` part of `RE_SERIES_DISCOUNT` (with the lazy
`.*?` in front, the earliest maximal `[\d.]` run immediately followed by
`%` wins); `run` holds the current run in reverse while inside one. -/
def findPctAux (run : Option (List Char)) : List Char → Option (List Char)
  | [] => none
  | c :: rest =>
    match run with
    | some acc =>
      if isPctClass c then findPctAux (some (c :: acc)) rest
      else if c = '%' then some acc.reverse
      else findPctAux none rest
    | none =>
      if isPctClass c then findPctAux (some [c]) rest else findPctAux none rest

/-- The percentage scan started outside a run. -/
def findPct (s : List Char) : Option (List Char) := findPctAux none s

/-- After the three digits of `RE_SERIES_DISCOUNT`: `\s*Series`
(case-insensitive); returns the remainder after `Series`. -/
def seriesKeywordAfter (s : List Char) : Option (List Char) :=
  let t := s.dropWhile isPySpace
  if ciStarts ("series".data) t then some (t.drop 6) else none

/-- Model of `RE_SERIES_DISCOUNT.search` on a description:
`(\d{3})\s*Series.*?([\d.]+)%`, returning the series digits and the
percentage digits. -/
def seriesDiscSearch : List Char → Option (List Char × List Char)
  | [] => none
  | [_] => none
  | [_, _] => none
  | a :: b :: d :: r =>
    if isDig a && isDig b && isDig d then
      match seriesKeywordAfter r with
      | some r2 =>
        match findPct r2 with
        | some pct => some ([a, b, d], pct)
        | none => seriesDiscSearch (b :: d :: r)
      | none => seriesDiscSearch (b :: d :: r)
    else seriesDiscSearch (b :: d :: r)

/-- A cell of the simplified pipeline's tables: `pdfplumber`'s
`extract_table` yields text or `None`. -/
abbrev SimpCell := Option (List Char)

/-- Python `cell or ""` over simplified cells. -/
def simpCellOrEmpty : SimpCell → List Char
  | none => []
  | some s => s

/-- Python `str.startswith("$")`. -/
def startsWithDollar : List Char → Bool
  | '$' :: _ => true
  | _ => false

/-- Processing of one data row by the simplified `parse_pdf` (lines
71-111): skip short rows and rows with a blank price cell, then either
the embedded series-discount branch or a product record. -/
def simpStep (row : List SimpCell) : Option Rec :=
  if row.length < 3 then none
  else
    let partRaw := simpCellOrEmpty (row.getD 0 none)
    let descRaw := simpCellOrEmpty (row.getD 1 none)
    let priceRaw := simpCellOrEmpty (row.getD 2 none)
    if pyStrip priceRaw = [] then none
    else
      let part := replaceAll ['\n'] ['/'] (pyStrip partRaw)
      let desc := replaceAll ("<br>".data) "; ".data (replaceAll ['\n'] "; ".data (pyStrip descRaw))
      let price := pyStrip priceRaw
      let prodRec : Rec :=
        ⟨part, [], desc, if startsWithDollar price then price else '$' :: price, []⟩
      if containsSub ("discount".data) (pyLower desc) && containsSub ['%'] desc then
        match seriesDiscSearch desc with
        | some (ser, pct) =>
          let cleanDesc := pyStrip (replaceAll (ser ++ " Series".data) [] (takeBefore ("Discount".data) desc))
          some ⟨[], ser, cleanDesc, [], pct ++ ['%']⟩
        | none => some prodRec
      else some prodRec

/-- The header-skip test of the simplified `parse_pdf` (line 68):
some truthy cell of the first row contains `part`. -/
def simpHeaderish (table : List (List SimpCell)) : Bool :=
  match table with
  | [] => false
  | row0 :: _ =>
    !row0.isEmpty &&
      row0.any (fun c =>
        match c with
        | none => false
        | some s => !s.isEmpty && containsSub ("part".data) (pyLower s))

/-- Records contributed by one table in the simplified `parse_pdf`. -/
def simpTable (table : List (List SimpCell)) : List Rec :=
  let start := if simpHeaderish table then 1 else 0
  (table.drop start).foldl (fun acc r => acc ++ (simpStep r).toList) []

/-- A page as seen by the simplified pipeline: optional text and the
single table of `extract_table`. -/
structure SimpPage where
  text : Option (List Char)
  table : Option (List (List SimpCell))

/-- Records accumulated over the pages by the simplified `parse_pdf`
(`if not table: continue`). -/
def simpCollect (pages : List SimpPage) : List Rec :=
  pages.foldl
    (fun acc pg =>
      match pg.table with
      | none => acc
      | some t => if t = [] then acc else acc ++ simpTable t) []

/-- Model of the simplified `extract_metadata`: quote-number search on
the first page's text with alternatives `quote|quotation|Q`. -/
def simpMetaQuote (pages : List SimpPage) : Option (List Char) :=
  match pages with
  | [] => none
  | pg :: _ => quoteSearch ["quote".data, "quotation".data, "q".data] (pg.text.getD [])

/-- Model of the simplified `parse_pdf`: existence check, metadata,
per-page folding, and the empty-result `ValueError` (no extension
check in this version). -/
def simpParsePdf (pathExists : Bool) (pages : List SimpPage) :
    Except PErr (List Rec × Option (List Char)) :=
  if !pathExists then .error .fileNotFound
  else
    let meta := simpMetaQuote pages
    let recs := simpCollect pages
    if recs = [] then .error .noRows else .ok (recs, meta)

/-- CSV minimal quoting: a field is quoted when it contains a comma, a
quote or a line break; quotes are doubled. -/
def csvField (s : List Char) : List Char :=
  if s.any (fun c => c = ',' || c = '"' || c = '\n' || c = '\r') then
    '"' :: (s.foldr (fun c acc => if c = '"' then '"' :: '"' :: acc else c :: acc) ['"'])
  else s

/-- One CSV line from a list of fields. -/
def csvLine (fields : List (List Char)) : List Char :=
  List.intercalate [','] (fields.map csvField)

/-- The CSV bytes produced by `save_csv` for a record list: the fixed
header then one line per record. -/
def csvRender (recs : List Rec) : List Char :=
  "Part Number,Series,Description,Price,Discount".data ++ '\n' ::
    (recs.map (fun r =>
      csvLine [r.partNumber, r.series, r.description, r.price, r.discount] ++ ['\n'])).flatten

/-- Output filename derivation of both `main`s:
`quote_<number>_parsed.csv` with `/` and spaces replaced. -/
def outputFilename (qn : Option (List Char)) : List Char :=
  "quote_".data ++
    replaceAll [' '] ['_'] (replaceAll ['/'] ['-'] (qn.getD ("unknown".data))) ++
    "_parsed.csv".data

/-- Model of the original `main`: exit code and the file written (name
and content), `none` when nothing is written. -/
def origMain (hasArg pathExists suffixPdf : Bool) (pages : List OrigPage) :
    ℕ × Option (List Char × List Char) :=
  if !hasArg then (1, none)
  else
    match origParsePdf pathExists suffixPdf pages with
    | .error _ => (1, none)
    | .ok (recs, meta) => (0, some (outputFilename meta, csvRender recs))

/-- Model of the simplified `main`. -/
def simpMain (hasArg pathExists : Bool) (pages : List SimpPage) :
    ℕ × Option (List Char × List Char) :=
  if !hasArg then (1, none)
  else
    match simpParsePdf pathExists pages with
    | .error _ => (1, none)
    | .ok (recs, meta) => (0, some (outputFilename meta, csvRender recs))

/-! Specification-side definitions: these follow the words of the
specification and of the claims, for comparison against the source
functions above. -/

/-- The record shape invariant of the amended claim C2: a record either
carries a price, or is a series-discount record with empty price and
part number and a non-empty discount. -/
def recInv (r : Rec) : Prop :=
  r.price ≠ [] ∨ (r.price = [] ∧ r.partNumber = [] ∧ r.discount ≠ [])

/-- A price-bearing cell matching
`\$?\s*<digits>(,<digits>)*(\.<2 digits>)?` (claim C3), in structured
form: optional dollar sign, whitespace, a first digit group, further
comma-separated digit groups, and an optional two-digit decimal part. -/
structure PriceShape where
  dollar : Bool
  ws : ℕ
  g0 : List Char
  gs : List (List Char)
  frac : Option (Char × Char)

/-- The decimal-part characters of a price shape. -/
def fracPart : Option (Char × Char) → List Char
  | none => []
  | some (a, b) => ['.', a, b]

/-- The digit-and-comma run of a price shape. -/
def dcRun (p : PriceShape) : List Char :=
  p.g0 ++ (p.gs.map (fun g => ',' :: g)).flatten

/-- The cell text denoted by a price shape. -/
def PriceShape.render (p : PriceShape) : List Char :=
  (if p.dollar then ['$'] else []) ++ List.replicate p.ws ' ' ++ dcRun p ++ fracPart p.frac

/-- Well-formedness of a price shape: non-empty digit groups and digit
decimals. -/
def PriceShape.WF (p : PriceShape) : Prop :=
  p.g0 ≠ [] ∧ p.g0.all isDig = true ∧
    (∀ g ∈ p.gs, g ≠ [] ∧ g.all isDig = true) ∧
    (match p.frac with
     | none => True
     | some (a, b) => isDig a = true ∧ isDig b = true)

/-- The numeric value of a price shape, in cents. -/
def PriceShape.cents (p : PriceShape) : ℕ :=
  100 * digitsToNat (p.g0 ++ p.gs.flatten) +
    (match p.frac with
     | none => 0
     | some (a, b) => 10 * (a.toNat - 48) + (b.toNat - 48))

/-- Formatting with exactly two decimal places and no thousands
separators, as the words of claim C3 demand. -/
def noSepFmt2 (cents : ℕ) : List Char :=
  natDigits (cents / 100) ++ '.' :: twoDigits (cents % 100)

/-- Pair each element with its position, starting at `i`. -/
def enumFrom (i : ℕ) : List (List Char) → List (ℕ × List Char)
  | [] => []
  | a :: l => (i, a) :: enumFrom (i + 1) l

/-- The position of the last header cell matching role `r` (claim C5):
the last element of the enumeration whose cell is classified as `r`. -/
def lastMatchIdx (joined : List Char) (r : HRole) (h : List (List Char)) : Option ℕ :=
  (((enumFrom 0 h).filter (fun p => decide (roleOfCell joined p.2 = some r))).getLast?).map Prod.fst

/-- The acceptance condition of claim C6 for the original pipeline's
price parsing: a (non-NaN) numeric cell, text containing a
currency-prefixed number, or text whose cleaned form parses as a
float. -/
def priceParseable : Cell → Bool
  | .pynone => false
  | .pynan => false
  | .pynum _ => true
  | .pystr s =>
    (rePriceSearch (pyStrip s)).isSome ||
      (pyFloat (pyStrip (removeChar '$' (removeChar ',' (pyStrip s))))).isSome

/-! Claim theorems. -/

/-- C1: the simplified parser's own comment promises that rows without a
price are skipped "unless it's a series discount", and the specification
promises a series-discount record for a description cell reading
`281 Series Volume Discount 15%` with no price column populated; but the
blank-price `continue` runs before the series-discount branch, so the
row is dropped and no record at all is emitted, even though the
series-discount pattern does match the description. -/
theorem claim1_code_behavior :
    simpStep [some ("".data), some ("281 Series Volume Discount 15%".data), some ("".data)] = none ∧
    seriesDiscSearch ("281 Series Volume Discount 15%".data) =
      some ("281".data, "15".data) := by
  decide

/-- C9 (counterexample): in the simplified pipeline a table consisting
of a single (non-header) row is not skipped; it contributes one
record. -/
theorem claim9_counterexample :
    ([[some ("750-1".data), some ("Widget".data), some ("5.00".data)]] :
        List (List SimpCell)).length < 2 ∧
    simpCollect [⟨none, some [[some ("750-1".data), some ("Widget".data), some ("5.00".data)]]⟩] =
      [⟨"750-1".data, [], "Widget".data, "$5.00".data, []⟩] := by
  decide

/-- C9 (amended): in the original pipeline a table with fewer than 2
rows is skipped entirely and changes neither the role mapping nor the
accumulated records; the simplified pipeline has no such check. -/
theorem claim9_amended (st : Option Indices × List Rec) (table : List (List Cell))
    (h : table.length < 2) : origProcessTable st table = st := by
  unfold origProcessTable
  exact if_pos (Or.inr h)

/-- Witness for `claim9_amended` at a concrete one-row table. -/
theorem claim9_amended_witness :
    ([[Cell.pystr ("x".data)]] : List (List Cell)).length < 2 ∧
    origProcessTable (none, []) [[Cell.pystr ("x".data)]] = (none, []) :=
  ⟨by decide, claim9_amended (none, []) [[Cell.pystr ("x".data)]] (by decide)⟩

/-- C7: in both pipelines, a document from which zero records are
accumulated makes `parse_pdf` fail with the no-pricing-rows
`ValueError`, and `main` then exits with code 1 without writing any CSV
file. -/
theorem claim7_empty_extraction :
    (∀ pages : List OrigPage, origCollect (origSelectTables pages) = [] →
      origParsePdf true true pages = .error .noRows ∧
      origMain true true true pages = (1, none)) ∧
    (∀ pages : List SimpPage, simpCollect pages = [] →
      simpParsePdf true pages = .error .noRows ∧
      simpMain true true pages = (1, none)) := by
  constructor
  · intro pages h
    have hp : origParsePdf true true pages = .error .noRows := by
      simp [origParsePdf, h]
    exact ⟨hp, by simp [origMain, hp]⟩
  · intro pages h
    have hp : simpParsePdf true pages = .error .noRows := by
      simp [simpParsePdf, h]
    exact ⟨hp, by simp [simpMain, hp]⟩

/-- Witness for `claim7_empty_extraction` at the empty document. -/
theorem claim7_witness :
    origParsePdf true true [] = .error .noRows ∧
    simpParsePdf true [] = .error .noRows :=
  ⟨(claim7_empty_extraction.1 [] (by decide)).1,
   (claim7_empty_extraction.2 [] (by decide)).1⟩

/-- C8: both pipelines are deterministic; equal extracted inputs give
byte-identical exit data, filename and CSV content. -/
theorem claim8_deterministic :
    (∀ (e s : Bool) (p p' : List OrigPage), p = p' →
      origMain true e s p = origMain true e s p') ∧
    (∀ (e : Bool) (p p' : List SimpPage), p = p' →
      simpMain true e p = simpMain true e p') := by
  constructor
  · intro e s p p' h
    rw [h]
  · intro e p p' h
    rw [h]

/-- Witness for `claim8_deterministic` at a concrete document. -/
theorem claim8_witness :
    origMain true true true [⟨none, []⟩] = origMain true true true [⟨none, []⟩] ∧
    simpMain true true [⟨none, none⟩] = simpMain true true [⟨none, none⟩] :=
  ⟨claim8_deterministic.1 true true [⟨none, []⟩] [⟨none, []⟩] rfl,
   claim8_deterministic.2 true [⟨none, none⟩] [⟨none, none⟩] rfl⟩

/-- C10: whenever either `main` returns exit code 1 (missing argument,
missing file, wrong extension, no rows extracted, or any parse error),
no output CSV is produced; `save_csv` runs only after a successful
`parse_pdf`. -/
theorem claim10_no_output_on_error :
    (∀ (a e s : Bool) (p : List OrigPage),
      (origMain a e s p).1 = 1 → (origMain a e s p).2 = none) ∧
    (∀ (a e : Bool) (p : List SimpPage),
      (simpMain a e p).1 = 1 → (simpMain a e p).2 = none) := by
  constructor
  · intro a e s p h
    unfold origMain at h ⊢
    cases a with
    | false => simp
    | true =>
      simp only [Bool.not_true] at h ⊢
      cases hp : origParsePdf e s p with
      | error err => simp [hp]
      | ok v => simp [hp] at h
  · intro a e p h
    unfold simpMain at h ⊢
    cases a with
    | false => simp
    | true =>
      simp only [Bool.not_true] at h ⊢
      cases hp : simpParsePdf e p with
      | error err => simp [hp]
      | ok v => simp [hp] at h

/-- Witness for `claim10_no_output_on_error` with a missing CLI
argument. -/
theorem claim10_witness :
    (origMain false true true []).1 = 1 ∧ (origMain false true true []).2 = none :=
  ⟨by decide, claim10_no_output_on_error.1 false true true [] (by decide)⟩

/-- A successful discount extraction from text is never the empty
string (every branch appends a percent sign). -/
theorem extractDiscountFromText_ne_nil {s d : List Char}
    (h : extractDiscountFromText s = some d) : d ≠ [] := by
  unfold extractDiscountFromText at h
  simp only [] at h
  split at h
  · injection h with h
    subst h
    simp
  · split at h
    · injection h with h
      subst h
      simp
    · exact absurd h (by simp)

/-- A successful discount extraction from any cell is never the empty
string. -/
theorem extractDiscountFromCell_ne_nil {c : Cell} {d : List Char}
    (h : extractDiscountFromCell c = some d) : d ≠ [] := by
  cases c with
  | pynone => simp [extractDiscountFromCell] at h
  | pynan => simp [extractDiscountFromCell] at h
  | pynum v =>
    simp only [extractDiscountFromCell] at h
    exact extractDiscountFromText_ne_nil h
  | pystr s =>
    simp only [extractDiscountFromCell] at h
    exact extractDiscountFromText_ne_nil h

set_option maxHeartbeats 1600000 in
/-- C2 (counterexample): the original pipeline, on a table whose product
row carries both a price and a discount cell, emits a single record with
both Price and Discount non-empty (and a non-empty Series), refuting
the claimed dichotomy. -/
theorem claim2_counterexample :
    origCollect [[[Cell.pystr ("Part Number".data), Cell.pystr ("Series".data),
        Cell.pystr ("Description".data), Cell.pystr ("Price".data), Cell.pystr ("Discount".data)],
      [Cell.pystr ("750-1".data), Cell.pystr ("281".data), Cell.pystr ("widget desc".data),
        Cell.pystr ("$5.00".data), Cell.pystr ("10%".data)]]] =
      [⟨"750-1".data, "281".data, "widget desc".data, "$5.00".data, "10%".data⟩] ∧
    ("$5.00".data ≠ ([] : List Char) ∧ "10%".data ≠ ([] : List Char)) := by
  decide

/-- C2 (amended): every record appended by either pipeline either has a
non-empty Price (product branch; in the original pipeline its Discount
and Series may additionally be non-empty when the corresponding cells
parse), or has empty Price and Part Number and a non-empty Discount
(series-discount branch). -/
theorem claim2_amended :
    (∀ (idx : Indices) (row : List Cell) (rec : Rec),
      origRowRec idx row = some rec → recInv rec) ∧
    (∀ (row : List SimpCell) (rec : Rec),
      simpStep row = some rec → recInv rec) := by
  constructor
  · intro idx row rec h
    unfold origRowRec at h
    simp only [] at h
    cases hsd : rowLooksLikeSeriesDiscount row idx with
    | true =>
      rw [hsd] at h
      simp only [Bool.not_true, Bool.false_and, Bool.false_eq_true, if_false] at h
      have h1 : (extractDiscountFromCell (rowCell row idx.discount)).isSome = true := by
        unfold rowLooksLikeSeriesDiscount at hsd
        simp only [Bool.and_eq_true] at hsd
        exact hsd.1.2
      obtain ⟨d, hd⟩ := Option.isSome_iff_exists.mp h1
      unfold normalizeRow at h
      simp only [if_true, hd] at h
      injection h with h
      subst h
      right
      refine ⟨rfl, rfl, ?_⟩
      simp only [Option.getD_some]
      exact extractDiscountFromCell_ne_nil hd
    | false =>
      rw [hsd] at h
      cases hhp : rowHasPrice row idx.price with
      | false =>
        rw [hhp] at h
        simp at h
      | true =>
        rw [hhp] at h
        simp only [Bool.not_true, Bool.not_false, Bool.true_and, Bool.and_false,
          Bool.false_eq_true, if_false] at h
        unfold normalizeRow at h
        simp only [Bool.false_eq_true, if_false] at h
        split at h
        · exact absurd h (by simp)
        · split at h
          · exact absurd h (by simp)
          · injection h with h
            subst h
            left
            assumption
  · intro row rec h
    unfold simpStep at h
    simp only [] at h
    split at h
    · exact absurd h (by simp)
    · split at h
      · exact absurd h (by simp)
      · rename_i hpr
        split at h
        · split at h
          · injection h with h
            subst h
            right
            exact ⟨rfl, rfl, by simp⟩
          · injection h with h
            subst h
            left
            split
            · exact hpr
            · simp
        · injection h with h
          subst h
          left
          split
          · exact hpr
          · simp

/-- Witness for `claim2_amended` at a concrete simplified product
row. -/
theorem claim2_witness :
    recInv ⟨"750-1".data, [], "Widget".data, "$5.00".data, []⟩ :=
  claim2_amended.2 [some ("750-1".data), some ("Widget".data), some ("5.00".data)]
    ⟨"750-1".data, [], "Widget".data, "$5.00".data, []⟩ (by decide)

set_option maxHeartbeats 1600000 in
/-- C4 (counterexample): on a headerless two-row table the original
`parse_pdf` assigns the price column via the header keyword inference on
the first row (index 3 here, the `len - 2` fallback), while the
frequency scan of `_infer_column_indices_from_rows` — which `parse_pdf`
never calls — would assign index 4, where the prices actually are. -/
theorem claim4_counterexample :
    (([[
      [Cell.pystr ("750-1".data), Cell.pystr ("abc".data), Cell.pystr ("desc".data),
        Cell.pystr ("x".data), Cell.pystr ("$5.00".data)],
      [Cell.pystr ("750-2".data), Cell.pystr ("def".data), Cell.pystr ("desc".data),
        Cell.pystr ("y".data), Cell.pystr ("$6.00".data)]]] :
        List (List (List Cell))).foldl origProcessTable (none, [])).1 =
      some ⟨none, none, some 2, some 3, some 4⟩ ∧
    (inferColumnIndicesFromRows
      [[Cell.pystr ("750-1".data), Cell.pystr ("abc".data), Cell.pystr ("desc".data),
        Cell.pystr ("x".data), Cell.pystr ("$5.00".data)],
       [Cell.pystr ("750-2".data), Cell.pystr ("def".data), Cell.pystr ("desc".data),
        Cell.pystr ("y".data), Cell.pystr ("$6.00".data)]]).price = some 4 ∧
    isHeaderRow (padTo5 [Cell.pystr ("750-1".data), Cell.pystr ("abc".data), Cell.pystr ("desc".data),
      Cell.pystr ("x".data), Cell.pystr ("$5.00".data)]) = false ∧
    (some 3 : Option ℕ) ≠ some 4 := by
  decide

/-- C4 (amended): in the original pipeline, when no header row has been
seen, the column roles are assigned by applying the header keyword
inference (`_infer_column_indices`) to the first processed padded row,
with unassigned price and discount falling back to the second-to-last
and last positions; the frequency-scanning
`_infer_column_indices_from_rows` exists in the source but is never
invoked. -/
theorem claim4_amended (recs : List Rec) (row : List Cell) (h1 : row ≠ [])
    (h2 : isHeaderRow (padTo5 row) = false) :
    origStep (none, recs) row =
      (some (inferNoHeader (padTo5 row)),
        recs ++ (origRowRec (inferNoHeader (padTo5 row)) (padTo5 row)).toList) := by
  unfold origStep
  rw [if_neg h1]
  simp [h2]

/-- Witness for `claim4_amended` at a concrete headerless row. -/
theorem claim4_amended_witness :
    ([Cell.pystr ("750-1".data)] ≠ ([] : List Cell)) ∧
    isHeaderRow (padTo5 [Cell.pystr ("750-1".data)]) = false ∧
    origStep (none, []) [Cell.pystr ("750-1".data)] =
      (some (inferNoHeader (padTo5 [Cell.pystr ("750-1".data)])),
        [] ++ (origRowRec (inferNoHeader (padTo5 [Cell.pystr ("750-1".data)]))
          (padTo5 [Cell.pystr ("750-1".data)])).toList) :=
  ⟨by decide, by decide,
    claim4_amended [] [Cell.pystr ("750-1".data)] (by decide) (by decide)⟩

/-- C6 (counterexample): the simplified pipeline does not parse prices
at all; a row whose price cell reads `N/A` — unparseable under every
acceptance clause — is neither dropped nor emitted with an empty price
field, but emitted with Price `$N/A`. -/
theorem claim6_counterexample :
    priceParseable (Cell.pystr ("N/A".data)) = false ∧
    simpStep [some ("750-1".data), some ("Widget".data), some ("N/A".data)] =
      some ⟨"750-1".data, [], "Widget".data, "$N/A".data, []⟩ := by
  decide

/-- C6 (amended): in the original pipeline, `_extract_price_from_cell`
succeeds exactly on the acceptance clauses — a (non-NaN) numeric cell,
text containing a currency-prefixed number, or text whose cleaned form
parses as a float — and yields no price (rather than raising) on
everything else. -/
theorem claim6_amended :
    ∀ c : Cell, (extractPriceFromCell c).isSome = priceParseable c := by
  intro c
  cases c with
  | pynone => rfl
  | pynan => rfl
  | pynum v => rfl
  | pystr s =>
    simp only [extractPriceFromCell, priceParseable, extractPriceFromText]
    cases hr : rePriceSearch (pyStrip s) with
    | some g =>
      simp only [hr]
      cases hf : pyFloat (removeChar ',' g) <;> simp
    | none =>
      simp only [hr]
      cases hf : pyFloat (pyStrip (removeChar '$' (removeChar ',' (pyStrip s)))) <;>
        simp [hf]

/-- Reading an `Indices` slot after one assignment step: the step
overwrites exactly the slot of the role the cell matches. -/
theorem get_assignStep (joined : List Char) (idx : Indices) (i : ℕ) (c : List Char)
    (r : HRole) :
    (assignStep joined idx i c).get r =
      if roleOfCell joined c = some r then some i else idx.get r := by
  cases hc : roleOfCell joined c with
  | none => cases r <;> simp [assignStep, hc, Indices.get]
  | some v => cases v <;> cases r <;> simp [assignStep, hc, Indices.get]

/-- The assignment loop computes, for each role, the position of the
last matching cell (falling back to the starting mapping). -/
theorem assignLoopAux_get (joined : List Char) (r : HRole) :
    ∀ (cs : List (List Char)) (idx : Indices) (i : ℕ),
      (assignLoopAux joined idx i cs).get r =
        match ((enumFrom i cs).filter
            (fun p => decide (roleOfCell joined p.2 = some r))).getLast? with
        | some p => some p.1
        | none => idx.get r := by
  intro cs
  induction cs with
  | nil => intro idx i; simp [assignLoopAux, enumFrom]
  | cons c rest ih =>
    intro idx i
    simp only [assignLoopAux, enumFrom, List.filter]
    rw [ih]
    by_cases hc : roleOfCell joined c = some r
    · simp only [hc, decide_eq_true_eq, if_pos]
      cases hrest : ((enumFrom (i+1) rest).filter
          (fun p => decide (roleOfCell joined p.2 = some r))).getLast? with
      | some p => simp [List.getLast?_cons, hrest]
      | none =>
        rw [List.getLast?_eq_none_iff] at hrest
        simp [hrest, get_assignStep, hc]
    · simp only [hc]
      cases hrest : ((enumFrom (i+1) rest).filter
          (fun p => decide (roleOfCell joined p.2 = some r))).getLast? with
      | some p => simp [hrest]
      | none => simp [hrest, get_assignStep, hc]

/-- C5 (counterexample): in the header row
`Part Number | Part No | Description | Price | Discount` the first cell
matches the part-role keywords, yet `_infer_column_indices` assigns the
part role to index 1 — the later matching cell overrides the earlier
assignment. -/
theorem claim5_counterexample :
    roleOfCell ("part number part no description price discount".data) "part number".data =
      some HRole.part ∧
    (inferColumnIndices [Cell.pystr ("Part Number".data), Cell.pystr ("Part No".data),
      Cell.pystr ("Description".data), Cell.pystr ("Price".data),
      Cell.pystr ("Discount".data)]).part = some 1 := by
  decide

/-- C5 (amended): in header-driven inference each cell is classified by
the first keyword rule it satisfies (in the order part, series,
description, price, discount), and for each role the LAST matching cell
determines the assigned column index — a later matching cell overrides
an earlier assignment.  (The price/discount fallbacks of
`inferColumnIndices` then only fill still-unassigned slots.) -/
theorem claim5_amended (joined : List Char) (h : List (List Char)) (r : HRole) :
    (assignLoop joined h).get r = lastMatchIdx joined r h := by
  unfold assignLoop lastMatchIdx
  rw [assignLoopAux_get]
  cases hl : ((enumFrom 0 h).filter
      (fun p => decide (roleOfCell joined p.2 = some r))).getLast? with
  | some p => simp [hl]
  | none => simp [hl]; cases r <;> rfl


theorem isDig_cases {c : Char} (h : isDig c = true) :
    c = '0' ∨ c = '1' ∨ c = '2' ∨ c = '3' ∨ c = '4' ∨
    c = '5' ∨ c = '6' ∨ c = '7' ∨ c = '8' ∨ c = '9' := by
  have h2 := h
  simp only [isDig, Bool.or_eq_true, decide_eq_true_eq] at h2
  tauto

theorem isDig_not_space {c : Char} (h : isDig c = true) : isPySpace c = false := by
  rcases isDig_cases h with rfl | rfl | rfl | rfl | rfl | rfl | rfl | rfl | rfl | rfl <;> rfl

theorem isDig_ne_dollar {c : Char} (h : isDig c = true) : c ≠ '$' := by
  rcases isDig_cases h with rfl | rfl | rfl | rfl | rfl | rfl | rfl | rfl | rfl | rfl <;> decide

theorem isDig_ne_plus {c : Char} (h : isDig c = true) : c ≠ '+' := by
  rcases isDig_cases h with rfl | rfl | rfl | rfl | rfl | rfl | rfl | rfl | rfl | rfl <;> decide

theorem isDig_ne_minus {c : Char} (h : isDig c = true) : c ≠ '-' := by
  rcases isDig_cases h with rfl | rfl | rfl | rfl | rfl | rfl | rfl | rfl | rfl | rfl <;> decide

theorem isDig_ne_comma {c : Char} (h : isDig c = true) : c ≠ ',' := by
  rcases isDig_cases h with rfl | rfl | rfl | rfl | rfl | rfl | rfl | rfl | rfl | rfl <;> decide

theorem isDig_toLower {c : Char} (h : isDig c = true) : c.toLower = c := by
  rcases isDig_cases h with rfl | rfl | rfl | rfl | rfl | rfl | rfl | rfl | rfl | rfl <;> decide

theorem isDig_toLower_ne_i {c : Char} (h : isDig c = true) : c.toLower ≠ 'i' := by
  rcases isDig_cases h with rfl | rfl | rfl | rfl | rfl | rfl | rfl | rfl | rfl | rfl <;> decide

theorem isDig_toLower_ne_n {c : Char} (h : isDig c = true) : c.toLower ≠ 'n' := by
  rcases isDig_cases h with rfl | rfl | rfl | rfl | rfl | rfl | rfl | rfl | rfl | rfl <;> decide

theorem isPriceClass_not_space {c : Char} (h : isPriceClass c = true) :
    isPySpace c = false := by
  rcases Bool.or_eq_true_iff.mp h with hd | hc
  · exact isDig_not_space hd
  · rw [decide_eq_true_eq] at hc
    subst hc
    rfl

theorem isPriceClass_ne_dollar {c : Char} (h : isPriceClass c = true) : c ≠ '$' := by
  rcases Bool.or_eq_true_iff.mp h with hd | hc
  · exact isDig_ne_dollar hd
  · rw [decide_eq_true_eq] at hc
    subst hc
    decide

theorem takeWhile_append_of_all {p : Char → Bool} {l1 : List Char} (l2 : List Char)
    (h : ∀ c ∈ l1, p c = true) : (l1 ++ l2).takeWhile p = l1 ++ l2.takeWhile p := by
  induction l1 with
  | nil => simp
  | cons a l ih =>
    rw [List.cons_append, List.takeWhile_cons_of_pos (h a (by simp)), ih]
    · rfl
    · intro c hc
      exact h c (by simp [hc])

theorem dropWhile_append_of_all {p : Char → Bool} {l1 : List Char} (l2 : List Char)
    (h : ∀ c ∈ l1, p c = true) : (l1 ++ l2).dropWhile p = l2.dropWhile p := by
  induction l1 with
  | nil => simp
  | cons a l ih =>
    rw [List.cons_append, List.dropWhile_cons_of_pos (h a (by simp))]
    exact ih (fun c hc => h c (by simp [hc]))

theorem takeWhile_all {p : Char → Bool} {l : List Char} (h : ∀ c ∈ l, p c = true) :
    l.takeWhile p = l := by
  have := @takeWhile_append_of_all p l [] h
  simpa using this

theorem dropWhile_all {p : Char → Bool} {l : List Char} (h : ∀ c ∈ l, p c = true) :
    l.dropWhile p = [] := by
  have := @dropWhile_append_of_all p l [] h
  simpa using this

theorem stripStart_cons_of_nonspace {c : Char} {l : List Char} (h : isPySpace c = false) :
    stripStart (c :: l) = c :: l := by
  simp [stripStart, List.dropWhile_cons, h]

theorem stripStart_replicate_space (n : ℕ) (l : List Char) :
    stripStart (List.replicate n ' ' ++ l) = stripStart l := by
  induction n with
  | zero => simp
  | succ k ih =>
    rw [List.replicate_succ, List.cons_append]
    simpa [stripStart] using ih

theorem stripEnd_append_of_nonspace {m l : List Char} (hne : l ≠ [])
    (h : ∀ c ∈ l, isPySpace c = false) : stripEnd (m ++ l) = m ++ l := by
  unfold stripEnd
  rw [List.reverse_append]
  cases hrev : l.reverse with
  | nil => exact absurd (by simpa using hrev) hne
  | cons c t =>
    have hc : c ∈ l := by
      rw [← List.mem_reverse, hrev]
      simp
    rw [List.cons_append, List.dropWhile_cons_of_neg (by simp [h c hc]), ← List.cons_append,
      ← hrev, ← List.reverse_append, List.reverse_reverse]

theorem stripEnd_of_all_nonspace {l : List Char} (hne : l ≠ [])
    (h : ∀ c ∈ l, isPySpace c = false) : stripEnd l = l := by
  have := @stripEnd_append_of_nonspace [] l hne h
  simpa using this

theorem rePriceSearch_no_dollar : ∀ {s : List Char}, (∀ c ∈ s, c ≠ '$') →
    rePriceSearch s = none := by
  intro s
  induction s with
  | nil => intro _; rfl
  | cons c rest ih =>
    intro h
    unfold rePriceSearch
    rw [if_neg (h c (by simp))]
    exact ih (fun x hx => h x (by simp [hx]))

theorem digitsToNat_foldl (a : ℕ) (ys : List Char) :
    ys.foldl (fun acc c => 10 * acc + (c.toNat - 48)) a =
      a * 10 ^ ys.length + digitsToNat ys := by
  induction ys generalizing a with
  | nil => simp [digitsToNat]
  | cons y ys ih =>
    rw [List.foldl_cons, ih]
    have h2 : digitsToNat (y :: ys) =
        (10 * 0 + (y.toNat - 48)) * 10 ^ ys.length + digitsToNat ys := by
      unfold digitsToNat
      rw [List.foldl_cons]
      exact ih _
    rw [h2]
    simp only [List.length_cons, pow_succ]
    ring

theorem digitsToNat_append (xs ys : List Char) :
    digitsToNat (xs ++ ys) = digitsToNat xs * 10 ^ ys.length + digitsToNat ys := by
  unfold digitsToNat
  rw [List.foldl_append]
  exact digitsToNat_foldl _ ys

theorem digitsToNat_pair (a b : Char) :
    digitsToNat [a, b] = 10 * (a.toNat - 48) + (b.toNat - 48) := by
  simp [digitsToNat]

theorem rheDiv_one (a : ℕ) : rheDiv a 1 = a := by
  simp [rheDiv, Nat.mod_one, Nat.div_one]

theorem rheDiv_hundred (n : ℕ) : rheDiv (100 * n) 100 = n := by
  unfold rheDiv
  simp [Nat.mul_mod_right, Nat.mul_div_cancel_left n (by norm_num : (0:ℕ) < 100)]

theorem fmtComma2_nat_two (n : ℕ) :
    fmtComma2 (.finite ⟨(n : ℤ), 2⟩) = commaFmt2Nat n := by
  simp only [fmtComma2]
  rw [if_neg (by exact Int.not_lt.mpr (Int.natCast_nonneg n))]
  simp only [Int.natAbs_ofNat]
  norm_num
  rw [rheDiv_hundred]

theorem fmtComma2_nat_zero (n : ℕ) :
    fmtComma2 (.finite ⟨(n : ℤ), 0⟩) = commaFmt2Nat (100 * n) := by
  simp only [fmtComma2]
  rw [if_neg (by exact Int.not_lt.mpr (Int.natCast_nonneg n))]
  simp only [Int.natAbs_ofNat]
  norm_num
  rw [rheDiv_one]

theorem pyLower_cons_ne_inf {d : Char} {rest : List Char} (hd : isDig d = true) :
    ¬(pyLower (d :: rest) = "inf".data ∨ pyLower (d :: rest) = "infinity".data) := by
  have hi := isDig_toLower_ne_i hd
  rintro (hc | hc)
  · rw [show ("inf".data) = ['i', 'n', 'f'] from rfl] at hc
    simp [pyLower] at hc
    exact hi hc.1
  · rw [show ("infinity".data) = ['i', 'n', 'f', 'i', 'n', 'i', 't', 'y'] from rfl] at hc
    simp [pyLower] at hc
    exact hi hc.1

theorem pyLower_cons_ne_nan {d : Char} {rest : List Char} (hd : isDig d = true) :
    ¬(pyLower (d :: rest) = "nan".data) := by
  have hn := isDig_toLower_ne_n hd
  intro hc
  rw [show ("nan".data) = ['n', 'a', 'n'] from rfl] at hc
  simp [pyLower] at hc
  exact hn hc.1

theorem pyFloatCore_digits (ds : List Char) (hne : ds ≠ [])
    (hds : ∀ c ∈ ds, isDig c = true) :
    pyFloatCore ds = some (.finite ⟨(digitsToNat ds : ℤ), 0⟩) := by
  obtain ⟨d, ds', rfl⟩ := List.exists_cons_of_ne_nil hne
  have hd : isDig d = true := hds d (by simp)
  unfold pyFloatCore
  rw [if_neg (pyLower_cons_ne_inf hd), if_neg (pyLower_cons_ne_nan hd)]
  simp only []
  rw [takeWhile_all hds, dropWhile_all hds]
  unfold pyFloatFinish
  rw [if_neg (by simp)]
  simp [pyMantissa]

theorem pyFloatCore_digits_frac (ds : List Char) (a b : Char) (hne : ds ≠ [])
    (hds : ∀ c ∈ ds, isDig c = true) (ha : isDig a = true) (hb : isDig b = true) :
    pyFloatCore (ds ++ ['.', a, b]) =
      some (.finite ⟨(digitsToNat (ds ++ [a, b]) : ℤ), 2⟩) := by
  obtain ⟨d, ds', rfl⟩ := List.exists_cons_of_ne_nil hne
  have hd : isDig d = true := hds d (by simp)
  unfold pyFloatCore
  rw [List.cons_append]
  rw [if_neg (pyLower_cons_ne_inf hd), if_neg (pyLower_cons_ne_nan hd)]
  simp only []
  rw [← List.cons_append, takeWhile_append_of_all _ hds, dropWhile_append_of_all _ hds]
  rw [List.takeWhile_cons_of_neg (by decide), List.dropWhile_cons_of_neg (by decide)]
  simp only []
  rw [List.takeWhile_cons_of_pos ha, List.takeWhile_cons_of_pos hb,
    List.dropWhile_cons_of_pos ha, List.dropWhile_cons_of_pos hb]
  simp only [List.takeWhile_nil, List.dropWhile_nil]
  unfold pyFloatFinish
  rw [if_neg (by simp)]
  simp [pyMantissa]

theorem pyFloat_cons_digit (d : Char) (u : List Char) (hd : isDig d = true)
    (hnos : ∀ c ∈ d :: u, isPySpace c = false) :
    pyFloat (d :: u) = pyFloatCore (d :: u) := by
  have hstrip : pyStrip (d :: u) = d :: u := by
    unfold pyStrip
    rw [stripStart_cons_of_nonspace (isDig_not_space hd)]
    exact stripEnd_of_all_nonspace (by simp) hnos
  unfold pyFloat
  rw [hstrip]
  simp only []
  rw [if_neg (isDig_ne_plus hd), if_neg (isDig_ne_minus hd)]

theorem dcRun_all_class (p : PriceShape) (h : p.WF) :
    ∀ c ∈ dcRun p, isPriceClass c = true := by
  intro c hc
  unfold dcRun at hc
  rw [List.mem_append] at hc
  rcases hc with hc | hc
  · have := List.all_eq_true.mp h.2.1 c hc
    simp [isPriceClass, this]
  · rw [List.mem_flatten] at hc
    obtain ⟨x, hx, hcx⟩ := hc
    rw [List.mem_map] at hx
    obtain ⟨g, hg, rfl⟩ := hx
    rcases List.mem_cons.mp hcx with rfl | hcg
    · simp [isPriceClass]
    · have := List.all_eq_true.mp ((h.2.2.1 g hg).2) c hcg
      simp [isPriceClass, this]

theorem dsRun_all_digit (p : PriceShape) (h : p.WF) :
    ∀ c ∈ p.g0 ++ p.gs.flatten, isDig c = true := by
  intro c hc
  rw [List.mem_append] at hc
  rcases hc with hc | hc
  · exact List.all_eq_true.mp h.2.1 c hc
  · rw [List.mem_flatten] at hc
    obtain ⟨g, hg, hcg⟩ := hc
    exact List.all_eq_true.mp ((h.2.2.1 g hg).2) c hcg

theorem fracPart_all_np (frac : Option (Char × Char))
    (hfr : match frac with
      | none => True
      | some (a, b) => isDig a = true ∧ isDig b = true) :
    ∀ c ∈ fracPart frac, isPySpace c = false ∧ c ≠ '$' := by
  intro c hc
  cases frac with
  | none => simp [fracPart] at hc
  | some ab =>
    obtain ⟨a, b⟩ := ab
    obtain ⟨ha, hb⟩ : isDig a = true ∧ isDig b = true := hfr
    simp only [fracPart, List.mem_cons, List.not_mem_nil, or_false] at hc
    rcases hc with rfl | rfl | rfl
    · exact ⟨rfl, by decide⟩
    · exact ⟨isDig_not_space ha, isDig_ne_dollar ha⟩
    · exact ⟨isDig_not_space hb, isDig_ne_dollar hb⟩

theorem dcRun_cons (p : PriceShape) {d : Char} {g0' : List Char} (hg0 : p.g0 = d :: g0') :
    dcRun p = d :: (g0' ++ ((p.gs.map (fun g => ',' :: g)).flatten)) := by
  unfold dcRun
  rw [hg0]
  rfl

theorem rePriceTail_body (p : PriceShape) (h : p.WF) :
    rePriceTail (List.replicate p.ws ' ' ++ (dcRun p ++ fracPart p.frac)) =
      some (dcRun p ++ fracPart p.frac) := by
  have hclass := dcRun_all_class p h
  obtain ⟨d, g0', hg0⟩ := List.exists_cons_of_ne_nil h.1
  have hd : isDig d = true := by
    apply List.all_eq_true.mp h.2.1
    rw [hg0]
    simp
  have hdc := dcRun_cons p hg0
  have hbody : dcRun p ++ fracPart p.frac =
      d :: (g0' ++ (p.gs.map (fun g => ',' :: g)).flatten ++ fracPart p.frac) := by
    rw [hdc, List.cons_append, List.append_assoc]
  have ht : (List.replicate p.ws ' ' ++ (dcRun p ++ fracPart p.frac)).dropWhile isPySpace =
      dcRun p ++ fracPart p.frac := by
    have h1 := stripStart_replicate_space p.ws (dcRun p ++ fracPart p.frac)
    unfold stripStart at h1
    rw [h1, hbody]
    exact List.dropWhile_cons_of_neg (by simp [isDig_not_space hd])
  have htake : (dcRun p ++ fracPart p.frac).takeWhile isPriceClass = dcRun p := by
    rw [takeWhile_append_of_all _ hclass]
    cases hf : p.frac with
    | none => simp [fracPart]
    | some ab =>
      obtain ⟨a, b⟩ := ab
      rw [show fracPart (some (a, b)) = '.' :: [a, b] from rfl,
        List.takeWhile_cons_of_neg (by decide)]
      simp
  have hdrop : (dcRun p ++ fracPart p.frac).dropWhile isPriceClass = fracPart p.frac := by
    rw [dropWhile_append_of_all _ hclass]
    cases hf : p.frac with
    | none => simp [fracPart]
    | some ab =>
      obtain ⟨a, b⟩ := ab
      rw [show fracPart (some (a, b)) = '.' :: [a, b] from rfl,
        List.dropWhile_cons_of_neg (by decide)]
  unfold rePriceTail
  simp only []
  rw [ht, htake, hdrop]
  rw [if_neg (by rw [hdc]; simp)]
  cases hf : p.frac with
  | none => simp [fracPart]
  | some ab =>
    obtain ⟨a, b⟩ := ab
    have hfr : isDig a = true ∧ isDig b = true := by
      have := h.2.2.2
      rw [hf] at this
      exact this
    rw [show fracPart (some (a, b)) = '.' :: a :: b :: [] from rfl]
    simp only []
    rw [if_pos (by simp [hfr.1, hfr.2])]

theorem rePriceSearch_dollar (p : PriceShape) (h : p.WF) :
    rePriceSearch ('$' :: (List.replicate p.ws ' ' ++ (dcRun p ++ fracPart p.frac))) =
      some (dcRun p ++ fracPart p.frac) := by
  unfold rePriceSearch
  rw [if_pos rfl, rePriceTail_body p h]

theorem removeComma_groups : ∀ (gs : List (List Char)),
    (∀ g ∈ gs, ∀ c ∈ g, isDig c = true) →
    List.filter (fun x => decide (x ≠ ','))
        ((gs.map (fun g => ',' :: g)).flatten) = gs.flatten := by
  intro gs
  induction gs with
  | nil => intro _; rfl
  | cons g rest ih =>
    intro hall
    simp only [List.map_cons, List.flatten_cons, List.filter_append, List.filter_cons]
    rw [if_neg (by simp)]
    have hg : List.filter (fun x => decide (x ≠ ',')) g = g := by
      rw [List.filter_eq_self]
      intro c hc
      simpa using isDig_ne_comma (hall g (by simp) c hc)
    rw [hg, ih (fun x hx c hc => hall x (by simp [hx]) c hc)]

theorem removeComma_body (p : PriceShape) (h : p.WF) :
    removeChar ',' (dcRun p ++ fracPart p.frac) =
      (p.g0 ++ p.gs.flatten) ++ fracPart p.frac := by
  unfold removeChar dcRun
  rw [List.filter_append, List.filter_append]
  have h0 : List.filter (fun x => decide (x ≠ ',')) p.g0 = p.g0 := by
    rw [List.filter_eq_self]
    intro c hc
    simpa using isDig_ne_comma (List.all_eq_true.mp h.2.1 c hc)
  have hfrac : List.filter (fun x => decide (x ≠ ',')) (fracPart p.frac) = fracPart p.frac := by
    rw [List.filter_eq_self]
    intro c hc
    cases hf : p.frac with
    | none => rw [hf] at hc; simp [fracPart] at hc
    | some ab =>
      obtain ⟨a, b⟩ := ab
      have hfr : isDig a = true ∧ isDig b = true := by
        have := h.2.2.2
        rw [hf] at this
        exact this
      rw [hf] at hc
      simp only [fracPart, List.mem_cons, List.not_mem_nil, or_false] at hc
      rcases hc with rfl | rfl | rfl
      · decide
      · simpa using isDig_ne_comma hfr.1
      · simpa using isDig_ne_comma hfr.2
  rw [h0, hfrac, removeComma_groups p.gs (fun g hg c hc => List.all_eq_true.mp ((h.2.2.1 g hg).2) c hc)]

theorem pyFloat_ds_none (ds : List Char) (hne : ds ≠ [])
    (hds : ∀ c ∈ ds, isDig c = true) :
    pyFloat (ds ++ fracPart none) = some (.finite ⟨(digitsToNat ds : ℤ), 0⟩) := by
  obtain ⟨d, ds', rfl⟩ := List.exists_cons_of_ne_nil hne
  have hd : isDig d = true := hds d (by simp)
  rw [show fracPart none = [] from rfl, List.append_nil]
  rw [pyFloat_cons_digit d ds' hd (fun c hc => isDig_not_space (hds c hc))]
  exact pyFloatCore_digits (d :: ds') (by simp) hds

theorem pyFloat_ds_some (ds : List Char) (a b : Char) (hne : ds ≠ [])
    (hds : ∀ c ∈ ds, isDig c = true) (ha : isDig a = true) (hb : isDig b = true) :
    pyFloat (ds ++ fracPart (some (a, b))) =
      some (.finite ⟨(digitsToNat (ds ++ [a, b]) : ℤ), 2⟩) := by
  obtain ⟨d, ds', rfl⟩ := List.exists_cons_of_ne_nil hne
  have hd : isDig d = true := hds d (by simp)
  have hnos : ∀ c ∈ (d :: ds') ++ fracPart (some (a, b)), isPySpace c = false := by
    intro c hc
    rw [List.mem_append] at hc
    rcases hc with hc | hc
    · exact isDig_not_space (hds c hc)
    · exact (fracPart_all_np (some (a, b)) ⟨ha, hb⟩ c hc).1
  rw [List.cons_append]
  rw [pyFloat_cons_digit d (ds' ++ fracPart (some (a, b))) hd
    (by rw [← List.cons_append]; exact hnos)]
  rw [← List.cons_append]
  rw [show fracPart (some (a, b)) = ['.', a, b] from rfl]
  exact pyFloatCore_digits_frac (d :: ds') a b (by simp) hds ha hb

theorem cents_eq_none (p : PriceShape) (hf : p.frac = none) :
    p.cents = 100 * digitsToNat (p.g0 ++ p.gs.flatten) := by
  unfold PriceShape.cents
  rw [hf]
  simp

theorem cents_eq_some (p : PriceShape) {a b : Char} (hf : p.frac = some (a, b)) :
    p.cents = digitsToNat ((p.g0 ++ p.gs.flatten) ++ [a, b]) := by
  unfold PriceShape.cents
  rw [hf]
  simp only []
  rw [digitsToNat_append (p.g0 ++ p.gs.flatten) [a, b], digitsToNat_pair]
  norm_num
  ring

theorem extractPriceFromText_render (p : PriceShape) (h : p.WF) :
    extractPriceFromText p.render = some ('$' :: commaFmt2Nat p.cents) := by
  have hfr : (match p.frac with
      | none => True
      | some (a, b) => isDig a = true ∧ isDig b = true) := h.2.2.2
  have hds := dsRun_all_digit p h
  have hclass := dcRun_all_class p h
  obtain ⟨d, g0', hg0⟩ := List.exists_cons_of_ne_nil h.1
  have hd : isDig d = true := by
    apply List.all_eq_true.mp h.2.1
    rw [hg0]
    simp
  have hds_ne : p.g0 ++ p.gs.flatten ≠ [] := by
    rw [hg0]
    simp
  have hbody_ne : dcRun p ++ fracPart p.frac ≠ [] := by
    rw [dcRun_cons p hg0]
    simp
  have hbody_nos : ∀ c ∈ dcRun p ++ fracPart p.frac, isPySpace c = false := by
    intro c hc
    rw [List.mem_append] at hc
    rcases hc with hc | hc
    · exact isPriceClass_not_space (hclass c hc)
    · exact (fracPart_all_np p.frac hfr c hc).1
  have hbody_nodollar : ∀ c ∈ dcRun p ++ fracPart p.frac, c ≠ '$' := by
    intro c hc
    rw [List.mem_append] at hc
    rcases hc with hc | hc
    · exact isPriceClass_ne_dollar (hclass c hc)
    · exact (fracPart_all_np p.frac hfr c hc).2
  cases hdol : p.dollar with
  | true =>
    have hrender : p.render =
        '$' :: (List.replicate p.ws ' ' ++ (dcRun p ++ fracPart p.frac)) := by
      unfold PriceShape.render
      rw [hdol]
      simp [List.append_assoc]
    have hstrip : pyStrip p.render = p.render := by
      rw [hrender]
      unfold pyStrip
      rw [stripStart_cons_of_nonspace (by decide)]
      rw [show '$' :: (List.replicate p.ws ' ' ++ (dcRun p ++ fracPart p.frac)) =
        ('$' :: List.replicate p.ws ' ') ++ (dcRun p ++ fracPart p.frac) by simp]
      rw [stripEnd_append_of_nonspace hbody_ne hbody_nos]
    unfold extractPriceFromText
    simp only []
    rw [hstrip]
    rw [hrender, rePriceSearch_dollar p h]
    simp only []
    rw [removeComma_body p h]
    cases hf : p.frac with
    | none =>
      rw [pyFloat_ds_none (p.g0 ++ p.gs.flatten) hds_ne hds]
      simp only []
      rw [fmtComma2_nat_zero, cents_eq_none p hf]
    | some ab =>
      obtain ⟨a, b⟩ := ab
      have hab : isDig a = true ∧ isDig b = true := by
        rw [hf] at hfr
        exact hfr
      rw [pyFloat_ds_some (p.g0 ++ p.gs.flatten) a b hds_ne hds hab.1 hab.2]
      simp only []
      rw [fmtComma2_nat_two, cents_eq_some p hf]
  | false =>
    have hrender : p.render = List.replicate p.ws ' ' ++ (dcRun p ++ fracPart p.frac) := by
      unfold PriceShape.render
      rw [hdol]
      simp [List.append_assoc]
    have hsstart : stripStart p.render = dcRun p ++ fracPart p.frac := by
      rw [hrender, stripStart_replicate_space]
      rw [dcRun_cons p hg0, List.cons_append]
      exact stripStart_cons_of_nonspace (isDig_not_space hd)
    have hstrip : pyStrip p.render = dcRun p ++ fracPart p.frac := by
      unfold pyStrip
      rw [hsstart]
      exact stripEnd_of_all_nonspace hbody_ne hbody_nos
    have hsearch : rePriceSearch (dcRun p ++ fracPart p.frac) = none :=
      rePriceSearch_no_dollar hbody_nodollar
    have hnodollar2 : ∀ c ∈ (p.g0 ++ p.gs.flatten) ++ fracPart p.frac, c ≠ '$' := by
      intro c hc
      rw [List.mem_append] at hc
      rcases hc with hc | hc
      · exact isDig_ne_dollar (hds c hc)
      · exact (fracPart_all_np p.frac hfr c hc).2
    have hnos2 : ∀ c ∈ (p.g0 ++ p.gs.flatten) ++ fracPart p.frac, isPySpace c = false := by
      intro c hc
      rw [List.mem_append] at hc
      rcases hc with hc | hc
      · exact isDig_not_space (hds c hc)
      · exact (fracPart_all_np p.frac hfr c hc).1
    have hremd : removeChar '$' (removeChar ',' (dcRun p ++ fracPart p.frac)) =
        (p.g0 ++ p.gs.flatten) ++ fracPart p.frac := by
      rw [removeComma_body p h]
      unfold removeChar
      rw [List.filter_eq_self]
      intro c hc
      simpa using hnodollar2 c hc
    have hstrip2 : pyStrip ((p.g0 ++ p.gs.flatten) ++ fracPart p.frac) =
        (p.g0 ++ p.gs.flatten) ++ fracPart p.frac := by
      unfold pyStrip
      rw [show (p.g0 ++ p.gs.flatten) ++ fracPart p.frac =
        d :: ((g0' ++ p.gs.flatten) ++ fracPart p.frac) by rw [hg0]; simp]
      rw [stripStart_cons_of_nonspace (isDig_not_space hd)]
      rw [stripEnd_of_all_nonspace (by simp) (by
        rw [show d :: ((g0' ++ p.gs.flatten) ++ fracPart p.frac) =
          (p.g0 ++ p.gs.flatten) ++ fracPart p.frac by rw [hg0]; simp]
        exact hnos2)]
    unfold extractPriceFromText
    simp only []
    rw [hstrip, hsearch]
    simp only []
    rw [hremd, hstrip2]
    cases hf : p.frac with
    | none =>
      rw [pyFloat_ds_none (p.g0 ++ p.gs.flatten) hds_ne hds]
      simp only []
      rw [fmtComma2_nat_zero, cents_eq_none p hf]
    | some ab =>
      obtain ⟨a, b⟩ := ab
      have hab : isDig a = true ∧ isDig b = true := by
        rw [hf] at hfr
        exact hfr
      rw [pyFloat_ds_some (p.g0 ++ p.gs.flatten) a b hds_ne hds hab.1 hab.2]
      simp only []
      rw [fmtComma2_nat_two, cents_eq_some p hf]

/-- C3 (counterexample): the code formats prices with Python's comma
format specifier, which INSERTS thousands separators: the pattern-matching
cell `1,234.56` (the shape with groups 1 and 234 and decimals 56, worth
123456 cents) is normalized to `$1,234.56`, not to the separator-free
`$1234.56` that the claim's words demand. -/
theorem claim3_counterexample :
    extractPriceFromCell (Cell.pystr ("1,234.56".data)) = some ("$1,234.56".data) ∧
    PriceShape.render ⟨false, 0, ['1'], [['2', '3', '4']], some ('5', '6')⟩ = "1,234.56".data ∧
    PriceShape.cents ⟨false, 0, ['1'], [['2', '3', '4']], some ('5', '6')⟩ = 123456 ∧
    "$1,234.56".data ≠ '$' :: noSepFmt2 123456 := by
  decide

/-- C3 (amended): for every cell whose text matches
`\$?\s*<digits>(,<digits>)*(\.<2 digits>)?`, the normalized Price field
equals `$` followed by the numeric value formatted with exactly two
decimal places and comma thousands separators reinserted every three
digits (e.g. input `1,234.56` yields `$1,234.56`). -/
theorem claim3_amended (p : PriceShape) (h : p.WF) :
    extractPriceFromCell (Cell.pystr p.render) = some ('$' :: commaFmt2Nat p.cents) := by
  simp only [extractPriceFromCell]
  exact extractPriceFromText_render p h

/-- Witness for `claim3_amended` at the shape rendering `1,234.56`. -/
theorem claim3_witness :
    PriceShape.WF ⟨false, 0, ['1'], [['2', '3', '4']], some ('5', '6')⟩ ∧
    extractPriceFromCell
        (Cell.pystr (PriceShape.render ⟨false, 0, ['1'], [['2', '3', '4']], some ('5', '6')⟩)) =
      some ('$' :: commaFmt2Nat
        (PriceShape.cents ⟨false, 0, ['1'], [['2', '3', '4']], some ('5', '6')⟩)) :=
  ⟨⟨by decide, by decide, by decide, by decide⟩,
    claim3_amended ⟨false, 0, ['1'], [['2', '3', '4']], some ('5', '6')⟩
      ⟨by decide, by decide, by decide, by decide⟩⟩

end Waigo
